import Mathlib

/-!
Verification of the ip_lookup repository's range-indexing engine.

Shallow embedding of:
  * `src/utils.rs`   — `parse_cidr`, `read_ip_ranges_from_file`
  * `src/hashmap.rs` — `IPRange`, `IPRangeEntry`, `IPRangeDirectLookup`
  * `src/main.rs`    — the body of one iteration of `monitor_file_changes`

Machine integers (`u32`, `u8`) are embedded as `Nat` with explicit `% 2^32`
where the source wraps.  A Rust panic (an `unwrap`, an out-of-range shift,
an out-of-bounds `Vec` index, an integer-overflow abort in debug builds) is
embedded as `Option.none`: a function that can panic returns `Option`.
The `u8` field holding the prefix length is named `prefix_len` here
(the source names it `prefix`).
-/

/-- The `IPRange` record of `src/hashmap.rs`: CIDR text, ISP name, ASN text.
The `Arc` sharing wrappers are erased (values are compared structurally). -/
structure IPRange where
  cidr_range : String
  isp : String
  asn : String
deriving DecidableEq

/-- The parsed `IPRangeEntry` of `src/hashmap.rs`: full (not pre-masked)
network address, prefix length, and the backing record. -/
structure IPRangeEntry where
  network : Nat
  prefix_len : Nat
  ip_range : IPRange
deriving DecidableEq

/-- Rust `u32` left shift `x << n`: panics (here `none`) when `n >= 32`,
otherwise wraps the result to 32 bits. -/
def checkedShl32 (x n : Nat) : Option Nat :=
  if n < 32 then some ((x <<< n) % 2^32) else none

/-- Rust `u32` right shift `x >> n`: panics (here `none`) when `n >= 32`. -/
def checkedShr32 (x n : Nat) : Option Nat :=
  if n < 32 then some (x >>> n) else none

/-- Rust unsigned subtraction `a - b`: overflow-aborts (here `none`) when
`b > a` (debug semantics). -/
def checkedSub (a b : Nat) : Option Nat :=
  if b ≤ a then some (a - b) else none

/-- `IPRangeEntry::mask` of `src/hashmap.rs`:
`if prefix == 0 { 0 } else { !((1u32).wrapping_shl(32 - prefix) - 1) }`.
`wrapping_shl` masks the shift amount by 32 and wraps to 32 bits; `!x` on a
`u32` is `(2^32 - 1) - x`. -/
def IPRangeEntry.mask (e : IPRangeEntry) : Nat :=
  if e.prefix_len = 0 then 0
  else (2^32 - 1) - ((1 <<< ((32 - e.prefix_len) % 32)) % 2^32 - 1)

/-- One maximal run of Rust `str::split(c)`: splitting an empty string gives
one empty piece, separators at the ends give empty pieces, like Rust. -/
def splitOnChar (c : Char) : List Char → List (List Char)
  | [] => [[]]
  | x :: xs =>
    if x = c then [] :: splitOnChar c xs
    else
      match splitOnChar c xs with
      | [] => [[x]]
      | y :: ys => (x :: y) :: ys

/-- Accumulate the decimal value of a digit run; `none` on a non-digit. -/
def digitsValAux : List Char → Nat → Option Nat
  | [], acc => some acc
  | c :: cs, acc =>
    if c.isDigit then digitsValAux cs (acc * 10 + (c.toNat - 48)) else none

/-- Decimal value of a non-empty all-digit character run. -/
def digitsVal : List Char → Option Nat
  | [] => none
  | c :: cs => digitsValAux (c :: cs) 0

/-- One octet as Rust's `Ipv4Addr` parser reads it: a non-empty digit run,
value at most 255, no leading zero (except the single digit `0`). -/
def parseOctet (l : List Char) : Option Nat := do
  let n ← digitsVal l
  if n ≤ 255 ∧ (l.length = 1 ∨ l.head? ≠ some '0') then pure n else none

/-- `str::parse::<Ipv4Addr>` on the address portion: exactly four octets
separated by dots, big-endian value. -/
def parseIpv4 (l : List Char) : Option Nat :=
  match splitOnChar '.' l with
  | [a, b, c, d] => do
    let a ← parseOctet a
    let b ← parseOctet b
    let c ← parseOctet c
    let d ← parseOctet d
    pure (((a * 256 + b) * 256 + c) * 256 + d)
  | _ => none

/-- `str::parse::<u8>` on the prefix portion: a digit run whose value fits
in 8 bits (values 33..=255 are accepted by the source). -/
def parseU8 (l : List Char) : Option Nat := do
  let n ← digitsVal l
  if n ≤ 255 then pure n else none

/-- `parse_cidr` of `src/utils.rs`.  The source splits on `/`, indexes
`parts[0]` and `parts[1]` and calls `.parse().unwrap()` on each: every
failure is a panic, embedded as `none`.  Text with two or more `/` parses
its first two pieces; the extra pieces are ignored, as in the source. -/
def parse_cidr (cidr : String) : Option (Nat × Nat) :=
  match splitOnChar '/' cidr.data with
  | p0 :: p1 :: _ => do
    let ip ← parseIpv4 p0
    let pl ← parseU8 p1
    pure (ip, pl)
  | _ => none

/-- `IPRangeEntry::new` of `src/hashmap.rs`: parse, then wrap the three
strings into the backing record. -/
def IPRangeEntry.new (cidr_range isp asn : String) : Option IPRangeEntry :=
  (parse_cidr cidr_range).map (fun q =>
    { network := q.1, prefix_len := q.2,
      ip_range := { cidr_range := cidr_range, isp := isp, asn := asn } })

/-- `IPRangeDirectLookup` of `src/hashmap.rs`.  The slot vector is embedded
as a map from slot index to slot content; only indices below `table_size`
are ever read or written by the embedded operations. -/
structure IPRangeDirectLookup where
  table : Nat → Option (Nat × IPRange)
  entries : List IPRangeEntry
  index_bits : Nat
  table_size : Nat

/-- `IPRangeDirectLookup::new`: asserts `index_bits <= 32` (an assertion
failure is a panic, embedded as `none`), allocates `1 << index_bits` empty
slots. -/
def IPRangeDirectLookup.new (index_bits : Nat) : Option IPRangeDirectLookup :=
  if index_bits ≤ 32 then
    some { table := fun _ => none, entries := [],
           index_bits := index_bits, table_size := 1 <<< index_bits }
  else none

/-- `IPRangeDirectLookup::insert_range`: parse and append to the pending
entry collection; the table is untouched. -/
def IPRangeDirectLookup.insert_range (s : IPRangeDirectLookup)
    (cidr_range isp asn : String) : Option IPRangeDirectLookup :=
  (IPRangeEntry.new cidr_range isp asn).map (fun e =>
    { s with entries := s.entries ++ [e] })

/-- The slot update of `build_table`'s inner loop: overwrite only when there
is no occupant or the occupant's prefix is strictly smaller
(`entry.prefix > existing_prefix`). -/
def slotWin (old : Option (Nat × IPRange)) (e : IPRangeEntry) :
    Option (Nat × IPRange) :=
  match old with
  | some (existing, r) =>
    if existing < e.prefix_len then some (e.prefix_len, e.ip_range)
    else some (existing, r)
  | none => some (e.prefix_len, e.ip_range)

/-- Write one slot of the table map. -/
def updateSlot (table : Nat → Option (Nat × IPRange)) (e : IPRangeEntry)
    (i : Nat) : Nat → Option (Nat × IPRange) :=
  fun j => if j = i then slotWin (table i) e else table j

/-- The loop `for index in start_index..=end_index` of `build_table`, with
the iteration count made explicit; `self.table[index]` on an index at or
past the vector length is a panic (`none`). -/
def writeSlots (e : IPRangeEntry) (table_size : Nat) :
    Nat → Nat → (Nat → Option (Nat × IPRange)) →
    Option (Nat → Option (Nat × IPRange))
  | _, 0, table => some table
  | start, n + 1, table =>
    if start < table_size then
      writeSlots e table_size (start + 1) n (updateSlot table e start)
    else none

/-- The body of `build_table`'s outer loop for one entry, in source order:
mask, `start_ip`, address count (`1u32 << (32 - prefix)`, a panic when the
shift amount reaches 32, i.e. when `prefix = 0`; the `u8` subtraction
`32 - prefix` overflow-aborts when `prefix > 32`), then the covered slot
interval `[start_ip >> shift, end_ip >> shift]` with
`end_ip = start_ip.wrapping_add(count - 1)`. -/
def processEntry (index_bits table_size : Nat)
    (table : Nat → Option (Nat × IPRange)) (e : IPRangeEntry) :
    Option (Nat → Option (Nat × IPRange)) :=
  let start_ip := e.network &&& e.mask
  let countOpt : Option Nat :=
    if e.prefix_len = 32 then some 1
    else (checkedSub 32 e.prefix_len).bind (checkedShl32 1)
  countOpt.bind (fun count =>
    let shift := 32 - index_bits
    (checkedShr32 start_ip shift).bind (fun start_index =>
      let end_ip := (start_ip + (count - 1)) % 2^32
      (checkedShr32 end_ip shift).bind (fun end_index =>
        writeSlots e table_size start_index (end_index + 1 - start_index)
          table)))

/-- `IPRangeDirectLookup::build_table`: clear every slot, then process the
pending entries in insertion order. -/
def IPRangeDirectLookup.build_table (s : IPRangeDirectLookup) :
    Option IPRangeDirectLookup :=
  (s.entries.foldlM (processEntry s.index_bits s.table_size)
    (fun _ => none)).map (fun t => { s with table := t })

/-- `IPRangeDirectLookup::search`: one shift (a panic when `index_bits = 0`
makes the shift amount 32), then an `Option`-guarded table access — a slot
index at or past the vector length yields the in-range `None`, not a panic. -/
def IPRangeDirectLookup.search (s : IPRangeDirectLookup) (ip_addr : Nat) :
    Option (Option IPRange) :=
  (checkedShr32 ip_addr (32 - s.index_bits)).map (fun index =>
    if index < s.table_size then (s.table index).map (fun p => p.2)
    else none)

/-! ### The Longest-Prefix Bucket Index, modelled from the spec

`IPRangeHashMap` is referenced by `src/utils.rs`, `src/routes.rs` and
`src/main.rs`, but the module defining it is not among the repository's
files (only `IPRangeDirectLookup` is in `src/hashmap.rs`). -/

/-- Modelled from the spec: the Mask of spec section 3, a pure function of
the prefix length — 0 maps to the all-zero mask, otherwise
`~((1 << (32 - prefix_length)) - 1)`. -/
def maskFor (prefix_len : Nat) : Nat :=
  if prefix_len = 0 then 0 else (2^32 - 1) - (2^(32 - prefix_len) - 1)

/-- Modelled from the spec: the Longest-Prefix Bucket Index type
`IPRangeHashMap` of spec sections 2 and 4.3, whose defining module is
missing from the repository's files; a mapping from 32-bit masked network
value to an ordered collection of `(mask, record)` pairs sharing that key. -/
structure IPRangeHashMap where
  buckets : Nat → List (Nat × IPRange)

/-- Modelled from the spec (section 4.3): `new()` — the empty mapping. -/
def IPRangeHashMap.new : IPRangeHashMap := { buckets := fun _ => [] }

/-- Modelled from the spec (section 4.3): `insert_range` parses the entry,
computes `mask` and `key = network & mask`, and appends `(mask, record)` to
the bucket list for `key`.  Parsing is the repository's `parse_cidr`, whose
failure is a panic (`none`). -/
def IPRangeHashMap.insert_range (hm : IPRangeHashMap)
    (cidr_range isp asn : String) : Option IPRangeHashMap :=
  (parse_cidr cidr_range).map (fun q =>
    let mask := maskFor q.2
    let key := q.1 &&& mask
    { buckets := fun k =>
        if k = key then
          hm.buckets k ++
            [(mask, { cidr_range := cidr_range, isp := isp, asn := asn })]
        else hm.buckets k })

/-- Modelled from the spec (section 4.3): within a bucket, return the first
entry whose stored mask applied to the address still equals the candidate
key. -/
def bucketFind (addr key : Nat) : List (Nat × IPRange) → Option IPRange
  | [] => none
  | (m, r) :: rest => if addr &&& m = key then some r else bucketFind addr key rest

/-- Modelled from the spec (section 4.3): iterate candidate prefix lengths
from the argument down to 0, returning on the first hit. -/
def searchFromLen (hm : IPRangeHashMap) (addr : Nat) : Nat → Option IPRange
  | 0 => bucketFind addr (addr &&& maskFor 0) (hm.buckets (addr &&& maskFor 0))
  | pl + 1 =>
    match bucketFind addr (addr &&& maskFor (pl + 1))
        (hm.buckets (addr &&& maskFor (pl + 1))) with
    | some r => some r
    | none => searchFromLen hm addr pl

/-- Modelled from the spec (section 4.3): `search` iterates candidate prefix
lengths from 32 down to 0. -/
def IPRangeHashMap.search (hm : IPRangeHashMap) (addr : Nat) : Option IPRange :=
  searchFromLen hm addr 32

/-! ### The index builder and one hot-reload iteration -/

/-- Rust `char::is_whitespace` restricted to the ASCII whitespace that
`str::trim` strips in the dataset's fields. -/
def isWs (c : Char) : Bool := c = ' ' ∨ c = '\t' ∨ c = '\n' ∨ c = '\r'

/-- Rust `str::trim`. -/
def trimChars (l : List Char) : List Char :=
  ((l.dropWhile isWs).reverse.dropWhile isWs).reverse

/-- Rust `str::trim_matches(c)`: strip every leading and trailing `c`. -/
def trimMatches (c : Char) (l : List Char) : List Char :=
  ((l.dropWhile (· = c)).reverse.dropWhile (· = c)).reverse

/-- `read_ip_ranges_from_file` of `src/utils.rs`, over the file's contents:
each element is one line read, `none` standing for an I/O error on that
line (`line?` returns `Err`, embedded as the inner `none` result).  A line
with at least 4 comma-separated fields is inserted — `insert_range` panics
on a malformed CIDR (the outer `none`); shorter lines are skipped.  The
declared parameter type is `IPRangeHashMap`, as in the source. -/
def read_ip_ranges_from_file :
    List (Option String) → IPRangeHashMap → Option (Option IPRangeHashMap)
  | [], hm => some (some hm)
  | none :: _, _ => some none
  | some line :: rest, hm =>
    let parts := splitOnChar ',' line.data
    if 4 ≤ parts.length then
      match hm.insert_range (String.mk (trimChars (parts.getD 0 [])))
          (String.mk (trimMatches '\"' (trimChars (parts.getD 1 []))))
          (String.mk (trimChars (parts.getD 2 []))) with
      | none => none
      | some hm2 => read_ip_ranges_from_file rest hm2
    else read_ip_ranges_from_file rest hm

/-- One body iteration of `monitor_file_changes` in `src/main.rs` after the
modification check fires, over the published index and the observed file:
`none` for the file (metadata or open failure) and a line-level I/O error
(`Err` from `read_ip_ranges_from_file`) are logged with `continue`, keeping
the published generation; a successful read is swapped in; a parse panic
inside `insert_range` crashes the process (outer `none`).  (The source
passes the freshly built index to `read_ip_ranges_from_file`, whose
parameter is the bucket index type.) -/
def monitorReloadStep (published : IPRangeHashMap)
    (file : Option (List (Option String))) : Option IPRangeHashMap :=
  match file with
  | none => some published
  | some lines =>
    match read_ip_ranges_from_file lines IPRangeHashMap.new with
    | some (some built) => some built
    | some none => some published
    | none => none

/-! ### Specification-side predicates over the embedded code -/

/-- The address `ip` lies in the CIDR range of entry `e`: masking `ip` with
the entry's mask reproduces the entry's masked network. -/
def inRange (e : IPRangeEntry) (ip : Nat) : Prop :=
  ip &&& e.mask = e.network &&& e.mask

instance inRangeDec (e : IPRangeEntry) (ip : Nat) : Decidable (inRange e ip) :=
  inferInstanceAs (Decidable (ip &&& e.mask = e.network &&& e.mask))

/-- First table slot `build_table` writes for an entry. -/
def slotStart (index_bits : Nat) (e : IPRangeEntry) : Nat :=
  (e.network &&& e.mask) >>> (32 - index_bits)

/-- Last table slot `build_table` writes for an entry. -/
def slotEnd (index_bits : Nat) (e : IPRangeEntry) : Nat :=
  (((e.network &&& e.mask) + (2^(32 - e.prefix_len) - 1)) % 2^32) >>>
    (32 - index_bits)

/-- Entry `e`'s slot interval covers slot `i`. -/
def coversSlot (index_bits : Nat) (e : IPRangeEntry) (i : Nat) : Prop :=
  slotStart index_bits e ≤ i ∧ i ≤ slotEnd index_bits e

instance coversSlotDec (index_bits : Nat) (e : IPRangeEntry) (i : Nat) :
    Decidable (coversSlot index_bits e i) :=
  inferInstanceAs (Decidable (_ ∧ _))

/-- The effect of one entry on one slot's content. -/
def applyEntry (index_bits i : Nat) (acc : Option (Nat × IPRange))
    (e : IPRangeEntry) : Option (Nat × IPRange) :=
  if coversSlot index_bits e i then slotWin acc e else acc

/-- The content `build_table` leaves in slot `i` (proved below). -/
def bestFor (index_bits : Nat) (L : List IPRangeEntry) (i : Nat) :
    Option (Nat × IPRange) :=
  L.foldl (applyEntry index_bits i) none

/-! ### Concrete instances used by the witnesses and counterexample -/

def emptyLookup (b : Nat) : IPRangeDirectLookup :=
  { table := fun _ => none, entries := [], index_bits := b, table_size := 2^b }

def c1rec : IPRange := { cidr_range := "10.0.0.0/8", isp := "ISP_A", asn := "AS_A" }

def c1e : IPRangeEntry := { network := 167772160, prefix_len := 8, ip_range := c1rec }

def c1pending : IPRangeDirectLookup := { emptyLookup 8 with entries := [c1e] }

def c1built : IPRangeDirectLookup := (c1pending.build_table).getD (emptyLookup 8)

def c8inserted : IPRangeDirectLookup :=
  ((emptyLookup 8).insert_range "10.0.0.0/8" "ISP_A" "AS_A").getD (emptyLookup 8)

def c9zero : IPRangeEntry :=
  { network := 0, prefix_len := 0,
    ip_range := { cidr_range := "0.0.0.0/0", isp := "Z", asn := "0" } }

def c9zpending : IPRangeDirectLookup := { emptyLookup 8 with entries := [c9zero] }

def c4rec1 : IPRange := { cidr_range := "0.0.0.0/8", isp := "ISP_1", asn := "AS_1" }

def c4rec2 : IPRange := { cidr_range := "1.0.0.0/8", isp := "ISP_2", asn := "AS_2" }

def c4e1 : IPRangeEntry := { network := 0, prefix_len := 8, ip_range := c4rec1 }

def c4e2 : IPRangeEntry := { network := 16777216, prefix_len := 8, ip_range := c4rec2 }

def c4pending : IPRangeDirectLookup := { emptyLookup 4 with entries := [c4e1, c4e2] }

def c4built : IPRangeDirectLookup := (c4pending.build_table).getD (emptyLookup 4)

def c2recA : IPRange := { cidr_range := "10.0.0.0/8", isp := "ISP_A", asn := "AS_A" }

def c2recB : IPRange := { cidr_range := "10.1.0.0/16", isp := "ISP_B", asn := "AS_B" }

def c2eA : IPRangeEntry := { network := 167772160, prefix_len := 8, ip_range := c2recA }

def c2eB : IPRangeEntry := { network := 167837696, prefix_len := 16, ip_range := c2recB }

def c2s16AB : IPRangeDirectLookup :=
  (IPRangeDirectLookup.build_table
    { emptyLookup 16 with entries := [c2eA, c2eB] }).getD (emptyLookup 16)

def c2s16BA : IPRangeDirectLookup :=
  (IPRangeDirectLookup.build_table
    { emptyLookup 16 with entries := [c2eB, c2eA] }).getD (emptyLookup 16)

/-! ### Arithmetic groundwork -/

theorem mask_eq (e : IPRangeEntry) (h1 : 1 ≤ e.prefix_len) (h2 : e.prefix_len ≤ 32) :
    e.mask = 2^32 - 2^(32 - e.prefix_len) := by
  unfold IPRangeEntry.mask
  rw [if_neg (by omega)]
  have hlt : 32 - e.prefix_len < 32 := by omega
  rw [Nat.mod_eq_of_lt hlt, Nat.shiftLeft_eq, one_mul,
    Nat.mod_eq_of_lt (Nat.pow_lt_pow_right (by norm_num) hlt)]
  have hp1 : 1 ≤ 2^(32 - e.prefix_len) := Nat.one_le_two_pow
  have hp2 : 2^(32 - e.prefix_len) ≤ 2^32 := Nat.pow_le_pow_right (by norm_num) (by omega)
  omega

theorem land_mask (x k : Nat) (hk : k ≤ 32) :
    x &&& (2^32 - 2^k) = x % 2^32 / 2^k * 2^k := by
  apply Nat.eq_of_testBit_eq
  intro i
  have hmask : (2^32 - 2^k : Nat) = (2^(32-k) - 1) <<< k := by
    rw [Nat.shiftLeft_eq, Nat.sub_mul, one_mul, ← Nat.pow_add]
    congr 2
    omega
  have hrhs : x % 2^32 / 2^k * 2^k = ((x % 2^32) >>> k) <<< k := by
    rw [Nat.shiftRight_eq_div_pow, Nat.shiftLeft_eq]
  rw [Nat.testBit_land, hmask, hrhs, Nat.testBit_shiftLeft, Nat.testBit_shiftLeft,
    Nat.testBit_shiftRight, Nat.testBit_two_pow_sub_one, Nat.testBit_mod_two_pow]
  by_cases hki : k ≤ i
  · have hik : k + (i - k) = i := by omega
    rw [hik]
    by_cases hi32 : i < 32
    · simp [hki, hi32, show i - k < 32 - k from by omega, Bool.and_comm]
    · simp [hki, hi32, show ¬(i - k < 32 - k) from by omega]
  · simp [hki]

theorem shr_lt_pow (x b : Nat) (hx : x < 2^32) (hb : b ≤ 32) :
    x >>> (32 - b) < 2^b := by
  rw [Nat.shiftRight_eq_div_pow]
  apply Nat.div_lt_of_lt_mul
  calc x < 2^32 := hx
    _ = 2^(32-b) * 2^b := by rw [← Nat.pow_add]; congr 1; omega

theorem count_eq (p : Nat) (h1 : 1 ≤ p) (h2 : p ≤ 32) :
    (if p = 32 then (some 1 : Option Nat)
     else (checkedSub 32 p).bind (checkedShl32 1)) = some (2^(32 - p)) := by
  by_cases hp : p = 32
  · subst hp; norm_num
  · rw [if_neg hp]
    unfold checkedSub
    rw [if_pos (by omega)]
    show checkedShl32 1 (32 - p) = _
    unfold checkedShl32
    rw [if_pos (by omega)]
    congr 1
    rw [Nat.shiftLeft_eq, one_mul,
      Nat.mod_eq_of_lt (Nat.pow_lt_pow_right (by norm_num) (by omega))]

/-! ### Semantics of the table build -/

theorem writeSlots_spec (e : IPRangeEntry) (ts : Nat) :
    ∀ (n start : Nat) (T : Nat → Option (Nat × IPRange)),
      (∀ j, start ≤ j → j < start + n → j < ts) →
      writeSlots e ts start n T
        = some (fun i => if start ≤ i ∧ i < start + n then slotWin (T i) e else T i) := by
  intro n
  induction n with
  | zero =>
    intro start T _
    unfold writeSlots
    congr 1
    funext i
    rw [if_neg (by omega)]
  | succ n ih =>
    intro start T h
    have hs : start < ts := h start le_rfl (by omega)
    unfold writeSlots
    rw [if_pos hs, ih (start + 1) (updateSlot T e start)
      (fun j hj1 hj2 => h j (by omega) (by omega))]
    congr 1
    funext i
    unfold updateSlot
    by_cases hi : i = start
    · subst hi
      rw [if_neg (by omega), if_pos rfl, if_pos (by omega)]
    · rw [if_neg hi]
      by_cases hin : start + 1 ≤ i ∧ i < start + 1 + n
      · rw [if_pos hin, if_pos (by omega)]
      · rw [if_neg hin, if_neg (by omega)]

theorem processEntry_spec (b ts : Nat) (e : IPRangeEntry)
    (T : Nat → Option (Nat × IPRange))
    (hb1 : 1 ≤ b) (hb2 : b ≤ 32) (hts : ts = 2^b)
    (he1 : 1 ≤ e.prefix_len) (he2 : e.prefix_len ≤ 32) :
    processEntry b ts T e
      = some (fun i => if coversSlot b e i then slotWin (T i) e else T i) := by
  unfold processEntry
  rw [count_eq e.prefix_len he1 he2]
  show (checkedShr32 (e.network &&& e.mask) (32 - b)).bind _ = _
  unfold checkedShr32
  rw [if_pos (show 32 - b < 32 by omega)]
  simp only [Option.some_bind]
  rw [if_pos (show 32 - b < 32 by omega)]
  simp only [Option.some_bind]
  have hend : (((e.network &&& e.mask) + (2^(32 - e.prefix_len) - 1)) % 2^32) >>> (32 - b) < 2^b :=
    shr_lt_pow _ b (Nat.mod_lt _ (by norm_num)) hb2
  rw [writeSlots_spec e ts _ _ T (fun j hj1 hj2 => by rw [hts]; omega)]
  congr 1
  funext i
  unfold coversSlot slotStart slotEnd
  by_cases hc : (e.network &&& e.mask) >>> (32 - b) ≤ i ∧
      i ≤ (((e.network &&& e.mask) + (2^(32 - e.prefix_len) - 1)) % 2^32) >>> (32 - b)
  · rw [if_pos (by omega), if_pos hc]
  · rw [if_neg (by omega), if_neg hc]

theorem foldlM_processEntry_spec (b ts : Nat)
    (hb1 : 1 ≤ b) (hb2 : b ≤ 32) (hts : ts = 2^b) :
    ∀ (L : List IPRangeEntry) (T : Nat → Option (Nat × IPRange)),
      (∀ e ∈ L, 1 ≤ e.prefix_len ∧ e.prefix_len ≤ 32) →
      L.foldlM (processEntry b ts) T
        = some (fun i => L.foldl (applyEntry b i) (T i)) := by
  intro L
  induction L with
  | nil => intro T _; rfl
  | cons e L ih =>
    intro T h
    have he := h e (List.mem_cons_self e L)
    rw [List.foldlM_cons, processEntry_spec b ts e T hb1 hb2 hts he.1 he.2]
    show List.foldlM _ _ _ = _
    rw [ih _ (fun e2 he2 => h e2 (List.mem_cons_of_mem _ he2))]
    congr 1

theorem build_table_spec (s : IPRangeDirectLookup)
    (hb1 : 1 ≤ s.index_bits) (hb2 : s.index_bits ≤ 32)
    (hts : s.table_size = 2^s.index_bits)
    (hL : ∀ e ∈ s.entries, 1 ≤ e.prefix_len ∧ e.prefix_len ≤ 32) :
    s.build_table
      = some { s with table := fun i => bestFor s.index_bits s.entries i } := by
  unfold IPRangeDirectLookup.build_table
  rw [foldlM_processEntry_spec s.index_bits s.table_size hb1 hb2 hts s.entries _ hL]
  rfl

theorem new_spec (b : Nat) (hb : b ≤ 32) :
    IPRangeDirectLookup.new b = some (emptyLookup b) := by
  unfold IPRangeDirectLookup.new emptyLookup
  rw [if_pos hb]
  congr 2
  rw [Nat.shiftLeft_eq, one_mul]

theorem new_le_32 (b : Nat) (s : IPRangeDirectLookup)
    (h : IPRangeDirectLookup.new b = some s) : b ≤ 32 := by
  by_contra hb
  unfold IPRangeDirectLookup.new at h
  rw [if_neg hb] at h
  exact Option.noConfusion h

/-! ### Characterizing the slot contents -/

theorem slotWin_ge_entry (acc : Option (Nat × IPRange)) (e : IPRangeEntry) :
    ∃ p r, slotWin acc e = some (p, r) ∧ e.prefix_len ≤ p := by
  match acc with
  | none => exact ⟨e.prefix_len, e.ip_range, rfl, le_rfl⟩
  | some (q, r) =>
    by_cases h : q < e.prefix_len
    · exact ⟨e.prefix_len, e.ip_range, by simp [slotWin, h], le_rfl⟩
    · exact ⟨q, r, by simp [slotWin, h], by omega⟩

theorem slotWin_ge_acc (p : Nat) (q : IPRange) (e : IPRangeEntry) :
    ∃ p2 r, slotWin (some (p, q)) e = some (p2, r) ∧ p ≤ p2 := by
  by_cases h : p < e.prefix_len
  · exact ⟨e.prefix_len, e.ip_range, by simp [slotWin, h], by omega⟩
  · exact ⟨p, q, by simp [slotWin, h], le_rfl⟩

theorem slotWin_cases (acc : Option (Nat × IPRange)) (e : IPRangeEntry) :
    slotWin acc e = some (e.prefix_len, e.ip_range) ∨ slotWin acc e = acc := by
  match acc with
  | none => exact Or.inl rfl
  | some (q, r) =>
    by_cases h : q < e.prefix_len
    · exact Or.inl (by simp [slotWin, h])
    · exact Or.inr (by simp [slotWin, h])

theorem bestAux_ge_acc (b i : Nat) :
    ∀ (L : List IPRangeEntry) (p : Nat) (q : IPRange),
      ∃ p2 r, L.foldl (applyEntry b i) (some (p, q)) = some (p2, r) ∧ p ≤ p2 := by
  intro L
  induction L with
  | nil => exact fun p q => ⟨p, q, rfl, le_rfl⟩
  | cons e L ih =>
    intro p q
    rw [List.foldl_cons]
    unfold applyEntry
    by_cases hc : coversSlot b e i
    · rw [if_pos hc]
      obtain ⟨p1, r1, hw, hp1⟩ := slotWin_ge_acc p q e
      rw [hw]
      obtain ⟨p2, r2, hf, hp2⟩ := ih p1 r1
      exact ⟨p2, r2, hf, le_trans hp1 hp2⟩
    · rw [if_neg hc]
      exact ih p q

theorem bestAux_dominates (b i : Nat) :
    ∀ (L : List IPRangeEntry) (acc : Option (Nat × IPRange)) (e : IPRangeEntry),
      e ∈ L → coversSlot b e i →
      ∃ p r, L.foldl (applyEntry b i) acc = some (p, r) ∧ e.prefix_len ≤ p := by
  intro L
  induction L with
  | nil => intro acc e he; exact absurd he (List.not_mem_nil e)
  | cons e0 L ih =>
    intro acc e he hc
    rw [List.foldl_cons]
    rcases List.mem_cons.mp he with he | he
    · subst he
      unfold applyEntry
      rw [if_pos hc]
      obtain ⟨p1, r1, hw, hp1⟩ := slotWin_ge_entry acc e
      rw [hw]
      obtain ⟨p2, r2, hf, hp2⟩ := bestAux_ge_acc b i L p1 r1
      exact ⟨p2, r2, hf, le_trans hp1 hp2⟩
    · exact ih _ e he hc

theorem bestAux_provenance (b i : Nat) :
    ∀ (L : List IPRangeEntry) (acc : Option (Nat × IPRange)),
      L.foldl (applyEntry b i) acc = acc ∨
      ∃ e ∈ L, coversSlot b e i ∧
        L.foldl (applyEntry b i) acc = some (e.prefix_len, e.ip_range) := by
  intro L
  induction L with
  | nil => intro acc; exact Or.inl rfl
  | cons e0 L ih =>
    intro acc
    rw [List.foldl_cons]
    by_cases hc : coversSlot b e0 i
    · rcases ih (applyEntry b i acc e0) with h | ⟨e, he, hce, h⟩
      · rw [h]
        unfold applyEntry
        rw [if_pos hc]
        rcases slotWin_cases acc e0 with hw | hw
        · exact Or.inr ⟨e0, List.mem_cons_self e0 L, hc, hw⟩
        · exact Or.inl hw
      · exact Or.inr ⟨e, List.mem_cons_of_mem _ he, hce, h⟩
    · have : applyEntry b i acc e0 = acc := by unfold applyEntry; rw [if_neg hc]
      rw [this]
      rcases ih acc with h | ⟨e, he, hce, h⟩
      · exact Or.inl h
      · exact Or.inr ⟨e, List.mem_cons_of_mem _ he, hce, h⟩

/-! ### Exactness of the slot approximation when index_bits covers the prefix -/

theorem pred_div_of_dvd (d A : Nat) (hd : 0 < d) (hdvd : d ∣ A) (hA : 0 < A) :
    (A - 1) / d = A / d - 1 := by
  obtain ⟨m, rfl⟩ := hdvd
  have hm : 0 < m := by
    rcases Nat.eq_zero_or_pos m with h | h
    · subst h; simp at hA
    · exact h
  rw [Nat.mul_div_cancel_left m hd]
  apply Nat.div_eq_of_lt_le
  · have h1 : (m - 1) * d = m * d - d := by rw [Nat.sub_mul, one_mul]
    have h2 : 1 * 1 ≤ d * m := Nat.mul_le_mul hd hm
    have h3 : m * d = d * m := Nat.mul_comm m d
    omega
  · have h2 : 1 * 1 ≤ d * m := Nat.mul_le_mul hd hm
    have h3 : (m - 1 + 1) * d = d * m := by rw [Nat.sub_add_cancel hm, Nat.mul_comm]
    omega

theorem div_interval_iff (d c st ip : Nat) (hd : 0 < d) (hc : 0 < c)
    (hdc : d ∣ c) (hcst : c ∣ st) :
    (st / d ≤ ip / d ∧ ip / d ≤ (st + (c - 1)) / d) ↔
      (st ≤ ip ∧ ip ≤ st + (c - 1)) := by
  have hdst : d ∣ st := dvd_trans hdc hcst
  constructor
  · rintro ⟨h1, h2⟩
    constructor
    · calc st = st / d * d := (Nat.div_mul_cancel hdst).symm
        _ ≤ ip / d * d := Nat.mul_le_mul_right d h1
        _ ≤ ip := Nat.div_mul_le_self ip d
    · have hdA : d ∣ st + c := Dvd.dvd.add hdst hdc
      have hpred : (st + c - 1) / d = (st + c) / d - 1 :=
        pred_div_of_dvd d (st + c) hd hdA (by omega)
      have hone : 1 ≤ (st + c) / d := by
        rw [Nat.le_div_iff_mul_le hd, one_mul]
        exact le_trans (Nat.le_of_dvd hc hdc) (Nat.le_add_left c st)
      have heq : st + (c - 1) = st + c - 1 := by omega
      rw [heq, hpred] at h2
      have hcan : (st + c) / d * d = st + c := Nat.div_mul_cancel hdA
      have h4 : ip < (ip / d + 1) * d := by
        have hmod := Nat.div_add_mod ip d
        have hcomm : d * (ip / d) = ip / d * d := Nat.mul_comm d (ip / d)
        have hmlt : ip % d < d := Nat.mod_lt ip hd
        have hone2 : (ip / d + 1) * d = ip / d * d + d := by
          rw [Nat.add_mul, one_mul]
        omega
      have h5 : ip < st + c := by
        calc ip < (ip / d + 1) * d := h4
          _ ≤ (st + c) / d * d := Nat.mul_le_mul_right d (by omega)
          _ = st + c := hcan
      omega
  · rintro ⟨h1, h2⟩
    exact ⟨Nat.div_le_div_right h1, Nat.div_le_div_right h2⟩

theorem land_eq_iff (x st k : Nat) (hk : k ≤ 32) (hx : x < 2^32)
    (hdvd : 2^k ∣ st) :
    x &&& (2^32 - 2^k) = st ↔ (st ≤ x ∧ x ≤ st + (2^k - 1)) := by
  have h2k : 0 < 2^k := pow_pos (by norm_num) k
  rw [land_mask x k hk, Nat.mod_eq_of_lt hx]
  constructor
  · intro h
    have hmod := Nat.div_add_mod x (2^k)
    have hcomm : 2^k * (x / 2^k) = x / 2^k * 2^k := Nat.mul_comm (2^k) (x / 2^k)
    have hlt : x % 2^k < 2^k := Nat.mod_lt x h2k
    constructor
    · calc st = x / 2^k * 2^k := h.symm
        _ ≤ x := Nat.div_mul_le_self x (2^k)
    · omega
  · rintro ⟨h1, h2⟩
    obtain ⟨m, rfl⟩ := hdvd
    have e1 : m * 2^k = 2^k * m := Nat.mul_comm m (2^k)
    have e2 : (m + 1) * 2^k = 2^k * m + 2^k := by
      rw [Nat.add_mul, one_mul, Nat.mul_comm]
    have hdiv : x / 2^k = m := Nat.div_eq_of_lt_le (by omega) (by omega)
    rw [hdiv]
    exact Nat.mul_comm m (2^k)

theorem covers_iff_inRange (b : Nat) (e : IPRangeEntry) (ip : Nat)
    (hb1 : 1 ≤ b) (hb2 : b ≤ 32) (hp1 : 1 ≤ e.prefix_len)
    (hpb : e.prefix_len ≤ b) (hip : ip < 2^32) :
    coversSlot b e (ip >>> (32 - b)) ↔ inRange e ip := by
  have hp32 : e.prefix_len ≤ 32 := le_trans hpb hb2
  have hmask := mask_eq e hp1 hp32
  have hkle : 32 - e.prefix_len ≤ 32 := by omega
  have h2k : 0 < 2^(32 - e.prefix_len) := pow_pos (by norm_num) _
  have h2sh : 0 < 2^(32 - b) := pow_pos (by norm_num) _
  have hpow32 : 2^(32 - e.prefix_len) ≤ 2^32 :=
    Nat.pow_le_pow_right (by norm_num) (by omega)
  have hst : e.network &&& e.mask
      = e.network % 2^32 / 2^(32 - e.prefix_len) * 2^(32 - e.prefix_len) := by
    rw [hmask]; exact land_mask e.network _ hkle
  have hdvd : 2^(32 - e.prefix_len) ∣ e.network &&& e.mask :=
    ⟨e.network % 2^32 / 2^(32 - e.prefix_len), by rw [hst, Nat.mul_comm]⟩
  have hstle : e.network &&& e.mask ≤ 2^32 - 2^(32 - e.prefix_len) := by
    rw [← hmask]
    exact Nat.and_le_right
  have hnw : ((e.network &&& e.mask) + (2^(32 - e.prefix_len) - 1)) % 2^32
      = (e.network &&& e.mask) + (2^(32 - e.prefix_len) - 1) := by
    apply Nat.mod_eq_of_lt
    omega
  unfold coversSlot slotStart slotEnd
  rw [hnw]
  simp only [Nat.shiftRight_eq_div_pow]
  rw [div_interval_iff _ _ _ _ h2sh h2k (pow_dvd_pow 2 (by omega)) hdvd]
  unfold inRange
  rw [hmask] at hdvd ⊢
  exact (land_eq_iff ip (e.network &&& (2^32 - 2^(32 - e.prefix_len)))
    (32 - e.prefix_len) hkle hip hdvd).symm

/-! ### Search evaluation and build failure -/

theorem search_eval (s : IPRangeDirectLookup) (ip : Nat)
    (hb1 : 1 ≤ s.index_bits) (hb2 : s.index_bits ≤ 32)
    (hts : s.table_size = 2^s.index_bits) (hip : ip < 2^32) :
    s.search ip
      = some ((s.table (ip >>> (32 - s.index_bits))).map (fun p => p.2)) := by
  unfold IPRangeDirectLookup.search checkedShr32
  rw [if_pos (show 32 - s.index_bits < 32 by omega)]
  simp only [Option.map_some']
  congr 1
  rw [if_pos]
  rw [hts]
  exact shr_lt_pow ip s.index_bits hip hb2

theorem processEntry_bad (e : IPRangeEntry)
    (hbad : e.prefix_len = 0 ∨ 32 < e.prefix_len) :
    ∀ (b ts : Nat) (T : Nat → Option (Nat × IPRange)),
      processEntry b ts T e = none := by
  intro b ts T
  rcases hbad with hp | hp
  · unfold processEntry
    rw [if_neg (by omega)]
    unfold checkedSub
    rw [if_pos (by omega)]
    simp only [Option.some_bind]
    unfold checkedShl32
    rw [if_neg (by omega)]
    rfl
  · unfold processEntry
    rw [if_neg (by omega)]
    unfold checkedSub
    rw [if_neg (by omega)]
    rfl

theorem foldlM_processEntry_fail (b ts : Nat) (e : IPRangeEntry)
    (hfail : ∀ T, processEntry b ts T e = none) :
    ∀ (L : List IPRangeEntry) (T : Nat → Option (Nat × IPRange)),
      e ∈ L → L.foldlM (processEntry b ts) T = none := by
  intro L
  induction L with
  | nil => intro T h; exact absurd h (List.not_mem_nil e)
  | cons e0 L ih =>
    intro T h
    rw [List.foldlM_cons]
    rcases List.mem_cons.mp h with rfl | hmem
    · rw [hfail T]; rfl
    · cases h0 : processEntry b ts T e0 with
      | none => rfl
      | some T2 =>
        show L.foldlM (processEntry b ts) T2 = none
        exact ih T2 hmem

theorem build_some_wf (s s1 : IPRangeDirectLookup)
    (h : s.build_table = some s1) :
    ∀ e ∈ s.entries, 1 ≤ e.prefix_len ∧ e.prefix_len ≤ 32 := by
  intro e he
  by_contra hbad
  have hbad2 : e.prefix_len = 0 ∨ 32 < e.prefix_len := by omega
  unfold IPRangeDirectLookup.build_table at h
  rw [foldlM_processEntry_fail s.index_bits s.table_size e
    (fun T => processEntry_bad e hbad2 s.index_bits s.table_size T)
    s.entries _ he] at h
  exact Option.noConfusion h

/-- C1: Direct Lookup Index exactness.  When `index_bits >= prefix_length`
for every inserted range, after `build_table()` runs, `search(address)`
returns the record of the most specific (longest-prefix) inserted range
containing the address (of maximal prefix length among those containing
it), and `None` when no inserted range contains it.  (`build_table`
succeeding forces every prefix length into `1..=32`; `index_bits >= 1` is
the constructor's documented range.) -/
theorem direct_lookup_index_exact
    (b : Nat) (L : List IPRangeEntry) (s0 s1 : IPRangeDirectLookup) (ip : Nat)
    (hb1 : 1 ≤ b)
    (hnew : IPRangeDirectLookup.new b = some s0)
    (hexact : ∀ e ∈ L, e.prefix_len ≤ b)
    (hbuild : IPRangeDirectLookup.build_table { s0 with entries := L } = some s1)
    (hip : ip < 2^32) :
    ((∀ e ∈ L, ¬ inRange e ip) → s1.search ip = some none) ∧
    (∀ e0 ∈ L, inRange e0 ip →
      ∃ e ∈ L, inRange e ip ∧
        (∀ e2 ∈ L, inRange e2 ip → e2.prefix_len ≤ e.prefix_len) ∧
        s1.search ip = some (some e.ip_range)) := by
  have hb2 : b ≤ 32 := new_le_32 b s0 hnew
  rw [new_spec b hb2] at hnew
  obtain rfl : s0 = emptyLookup b := (Option.some.inj hnew).symm
  have hwf := build_some_wf _ s1 hbuild
  have hwf1 : ∀ e ∈ L, 1 ≤ e.prefix_len := fun e he => (hwf e he).1
  rw [build_table_spec _ (by exact hb1) (by exact hb2) (by rfl) hwf] at hbuild
  have hs1 := Option.some.inj hbuild
  have htab : ∀ i, s1.table i = bestFor b L i := fun i => by
    rw [← hs1]; exact rfl
  have hbits : s1.index_bits = b := by rw [← hs1]; exact rfl
  have htsz : s1.table_size = 2^b := by rw [← hs1]; exact rfl
  have hsr : s1.search ip
      = some ((bestFor b L (ip >>> (32 - b))).map (fun p => p.2)) := by
    rw [search_eval s1 ip (by omega) (by omega) (by rw [htsz, hbits]) hip,
      hbits, htab]
  unfold bestFor at hsr
  constructor
  · intro hnone
    have hbf : L.foldl (applyEntry b (ip >>> (32 - b))) none = none := by
      rcases bestAux_provenance b (ip >>> (32 - b)) L none with h | ⟨e, he, hce, h⟩
      · exact h
      · exact absurd ((covers_iff_inRange b e ip hb1 hb2 (hwf1 e he)
          (hexact e he) hip).mp hce) (hnone e he)
    rw [hsr, hbf]
    rfl
  · intro e0 he0 hin0
    have hc0 : coversSlot b e0 (ip >>> (32 - b)) :=
      (covers_iff_inRange b e0 ip hb1 hb2 (hwf1 e0 he0) (hexact e0 he0) hip).mpr hin0
    obtain ⟨p, r, hbf, _⟩ :=
      bestAux_dominates b (ip >>> (32 - b)) L none e0 he0 hc0
    rcases bestAux_provenance b (ip >>> (32 - b)) L none with h | ⟨e, he, hce, h⟩
    · rw [h] at hbf; exact absurd hbf (by simp)
    · refine ⟨e, he, (covers_iff_inRange b e ip hb1 hb2 (hwf1 e he)
        (hexact e he) hip).mp hce, ?_, ?_⟩
      · intro e2 he2 hin2
        have hc2 : coversSlot b e2 (ip >>> (32 - b)) :=
          (covers_iff_inRange b e2 ip hb1 hb2 (hwf1 e2 he2)
            (hexact e2 he2) hip).mpr hin2
        obtain ⟨p2, r2, hbf2, hple2⟩ :=
          bestAux_dominates b (ip >>> (32 - b)) L none e2 he2 hc2
        rw [h] at hbf2
        have hfst := congrArg (fun o => (Option.getD o (0, IPRange.mk "" "" "")).1) hbf2
        simp at hfst
        omega
      · rw [hsr, h]
        rfl

/-- C1 witness: a single /8 range built with 8 index bits; 10.0.0.1 resolves
to its record. -/
theorem direct_lookup_index_exact_witness :
    c1built.search 167772161 = some (some c1rec) := by
  have h := (direct_lookup_index_exact 8 [c1e] (emptyLookup 8) c1built 167772161
      (by norm_num) rfl (by decide) rfl (by norm_num)).2 c1e (by decide) (by decide)
  obtain ⟨e, he, _, _, hs⟩ := h
  have he2 : e = c1e := by simpa using he
  subst he2
  exact hs

/-- C7: build_table idempotence — a second `build_table()` on the result of
a successful one reproduces the very same state, table and all. -/
theorem build_table_idempotent (s s1 : IPRangeDirectLookup)
    (h : s.build_table = some s1) : s1.build_table = some s1 := by
  unfold IPRangeDirectLookup.build_table at h ⊢
  cases hfold : s.entries.foldlM (processEntry s.index_bits s.table_size)
      (fun _ => none) with
  | none => rw [hfold] at h; exact absurd h (by simp)
  | some T =>
    rw [hfold] at h
    simp only [Option.map_some'] at h
    have hs1 := Option.some.inj h
    rw [← hs1]
    show (s.entries.foldlM (processEntry s.index_bits s.table_size)
        (fun _ => none)).map _ = _
    rw [hfold]
    rfl

theorem build_table_idempotent_witness :
    c1built.build_table = some c1built :=
  build_table_idempotent c1pending c1built rfl

/-- C8: insert_range frame property — a successful insert only appends the
parsed entry to the pending collection; every queryable slot and every
search result is unchanged until `build_table` runs. -/
theorem insert_range_frame (s s1 : IPRangeDirectLookup) (c i a : String)
    (h : s.insert_range c i a = some s1) :
    (∀ idx, s1.table idx = s.table idx) ∧
    (∃ e, IPRangeEntry.new c i a = some e ∧ s1.entries = s.entries ++ [e]) ∧
    (∀ ip, s1.search ip = s.search ip) := by
  unfold IPRangeDirectLookup.insert_range at h
  cases hne : IPRangeEntry.new c i a with
  | none => rw [hne] at h; exact absurd h (by simp)
  | some e =>
    rw [hne] at h
    simp only [Option.map_some'] at h
    have hs1 := Option.some.inj h
    refine ⟨fun idx => by rw [← hs1], ⟨e, rfl, by rw [← hs1]⟩,
      fun ip => by rw [← hs1]; exact rfl⟩

theorem insert_range_frame_witness :
    (∀ idx, c8inserted.table idx = (emptyLookup 8).table idx) ∧
    (∃ e, IPRangeEntry.new "10.0.0.0/8" "ISP_A" "AS_A" = some e ∧
      c8inserted.entries = (emptyLookup 8).entries ++ [e]) ∧
    (∀ ip, c8inserted.search ip = (emptyLookup 8).search ip) :=
  insert_range_frame (emptyLookup 8) c8inserted "10.0.0.0/8" "ISP_A" "AS_A" rfl

/-- C9: build_table totality — with every pending prefix length in 1..=32
(and a constructor-valid index_bits) the build succeeds; an entry with
prefix length 0 makes the address-count shift `1u32 << 32` panic, so the
build fails for every such entry set. -/
theorem build_table_total_iff_valid :
    (∀ s : IPRangeDirectLookup, 1 ≤ s.index_bits → s.index_bits ≤ 32 →
      s.table_size = 2^s.index_bits →
      (∀ e ∈ s.entries, 1 ≤ e.prefix_len ∧ e.prefix_len ≤ 32) →
      (s.build_table).isSome = true) ∧
    (∀ (s : IPRangeDirectLookup) (e : IPRangeEntry), e ∈ s.entries →
      e.prefix_len = 0 → s.build_table = none) := by
  constructor
  · intro s h1 h2 h3 h4
    rw [build_table_spec s h1 h2 h3 h4]
    rfl
  · intro s e he hp
    unfold IPRangeDirectLookup.build_table
    rw [foldlM_processEntry_fail s.index_bits s.table_size e
      (processEntry_bad e (Or.inl hp) s.index_bits s.table_size) s.entries _ he]
    rfl

theorem build_table_total_iff_valid_witness :
    (c1pending.build_table).isSome = true ∧ c9zpending.build_table = none :=
  ⟨build_table_total_iff_valid.1 c1pending (by decide) (by decide) (by decide)
      (by decide),
    build_table_total_iff_valid.2 c9zpending c9zero (by decide) (by decide)⟩

/-- C10: search totality — for index_bits in 1..=32 the slot index is always
below the table size, so the Option-guarded access never takes its
out-of-bounds branch; the constructor's assertion accepts index_bits = 0,
for which the shift amount reaches 32 and search panics. -/
theorem search_total_iff_valid :
    (∀ (s : IPRangeDirectLookup) (ip : Nat), 1 ≤ s.index_bits →
      s.index_bits ≤ 32 → s.table_size = 2^s.index_bits → ip < 2^32 →
      ip >>> (32 - s.index_bits) < s.table_size ∧
      s.search ip
        = some ((s.table (ip >>> (32 - s.index_bits))).map (fun p => p.2))) ∧
    (IPRangeDirectLookup.new 0).isSome = true ∧
    (∀ (s : IPRangeDirectLookup) (ip : Nat), s.index_bits = 0 →
      s.search ip = none) := by
  refine ⟨fun s ip h1 h2 h3 hip => ⟨?_, search_eval s ip h1 h2 h3 hip⟩, rfl, ?_⟩
  · rw [h3]; exact shr_lt_pow ip s.index_bits hip h2
  · intro s ip h0
    unfold IPRangeDirectLookup.search checkedShr32
    rw [h0]
    rfl

theorem search_total_iff_valid_witness :
    167772161 >>> (32 - c1built.index_bits) < c1built.table_size ∧
    c1built.search 167772161
      = some ((c1built.table (167772161 >>> (32 - c1built.index_bits))).map
          (fun p => p.2)) :=
  search_total_iff_valid.1 c1built 167772161 (by decide) (by decide)
    (by decide) (by decide)

/-! ### C4: equal-prefix tie-break -/

/-- C4 counterexample: with 4 index bits, 0.0.0.0/8 inserted first and
1.0.0.0/8 inserted second both cover slot 0 with equal prefix length, yet
the slot holds the FIRST inserted record, not the later one — last-write-
wins is false; searching 1.0.0.5 (inside the later range) returns the
earlier record. -/
theorem equal_prefix_tie_cex :
    c4pending.build_table = some c4built ∧
    c4e1.prefix_len = c4e2.prefix_len ∧
    coversSlot 4 c4e1 0 ∧ coversSlot 4 c4e2 0 ∧
    c4built.table 0 = some (8, c4rec1) ∧
    ¬ c4built.table 0 = some (8, c4rec2) ∧
    c4built.search 16777221 = some (some c4rec1) ∧
    ¬ c4rec1 = c4rec2 :=
  ⟨rfl, by decide, by decide, by decide, by decide, by decide, by decide,
    by decide⟩

/-- C4 amended: when two entries of equal prefix length cover the same slot,
the slot ends up holding the FIRST inserted of the two (first-write-wins);
and an equal-or-shorter prefix never displaces a strictly more specific
occupant — the final slot content always has prefix length at least that of
every entry covering the slot. -/
theorem equal_prefix_tie_first_write :
    (∀ (b : Nat) (s0 s1 : IPRangeDirectLookup) (e1 e2 : IPRangeEntry) (i : Nat),
      1 ≤ b → IPRangeDirectLookup.new b = some s0 →
      e1.prefix_len = e2.prefix_len →
      coversSlot b e1 i → coversSlot b e2 i →
      IPRangeDirectLookup.build_table { s0 with entries := [e1, e2] } = some s1 →
      s1.table i = some (e1.prefix_len, e1.ip_range)) ∧
    (∀ (b : Nat) (s0 s1 : IPRangeDirectLookup) (L : List IPRangeEntry)
        (e : IPRangeEntry) (i : Nat),
      1 ≤ b → IPRangeDirectLookup.new b = some s0 →
      IPRangeDirectLookup.build_table { s0 with entries := L } = some s1 →
      e ∈ L → coversSlot b e i →
      ∃ p r, s1.table i = some (p, r) ∧ e.prefix_len ≤ p) := by
  constructor
  · intro b s0 s1 e1 e2 i hb1 hnew hpeq hc1 hc2 hbuild
    have hb2 := new_le_32 b s0 hnew
    rw [new_spec b hb2] at hnew
    obtain rfl : s0 = emptyLookup b := (Option.some.inj hnew).symm
    have hwf := build_some_wf _ s1 hbuild
    rw [build_table_spec _ (by exact hb1) (by exact hb2) rfl hwf] at hbuild
    have hs1 := Option.some.inj hbuild
    have htab : s1.table i = bestFor b [e1, e2] i := by rw [← hs1]; exact rfl
    rw [htab]
    unfold bestFor
    rw [List.foldl_cons, List.foldl_cons, List.foldl_nil]
    unfold applyEntry
    rw [if_pos hc1, if_pos hc2]
    have h1 : slotWin none e1 = some (e1.prefix_len, e1.ip_range) := rfl
    rw [h1]
    show (if e1.prefix_len < e2.prefix_len then some (e2.prefix_len, e2.ip_range)
      else some (e1.prefix_len, e1.ip_range)) = some (e1.prefix_len, e1.ip_range)
    rw [if_neg (by omega)]
  · intro b s0 s1 L e i hb1 hnew hbuild he hc
    have hb2 := new_le_32 b s0 hnew
    rw [new_spec b hb2] at hnew
    obtain rfl : s0 = emptyLookup b := (Option.some.inj hnew).symm
    have hwf := build_some_wf _ s1 hbuild
    rw [build_table_spec _ (by exact hb1) (by exact hb2) rfl hwf] at hbuild
    have hs1 := Option.some.inj hbuild
    have htab : s1.table i = bestFor b L i := by rw [← hs1]; exact rfl
    rw [htab]
    unfold bestFor
    exact bestAux_dominates b i L none e he hc

theorem equal_prefix_tie_first_write_witness :
    c4built.table 0 = some (c4e1.prefix_len, c4e1.ip_range) :=
  equal_prefix_tie_first_write.1 4 (emptyLookup 4) c4built c4e1 c4e2 0
    (by norm_num) rfl (by decide) (by decide) (by decide) rfl

/-! ### C2: longest-prefix overlap resolution in both index strategies -/

theorem insert_concrete (s : IPRangeDirectLookup) (c i a : String)
    (e : IPRangeEntry) (h : IPRangeEntry.new c i a = some e) :
    s.insert_range c i a = some { s with entries := s.entries ++ [e] } := by
  unfold IPRangeDirectLookup.insert_range
  rw [h]
  rfl

theorem c2_bestFor (b : Nat) (hb16 : 16 ≤ b) (hb32 : b ≤ 32)
    (L : List IPRangeEntry) (hL : L = [c2eA, c2eB] ∨ L = [c2eB, c2eA]) :
    bestFor b L (167838211 >>> (32 - b)) = some (16, c2recB) := by
  have hcB : coversSlot b c2eB (167838211 >>> (32 - b)) := by
    refine (covers_iff_inRange b c2eB 167838211 (by omega) hb32 ?_ ?_
      (by norm_num)).mpr (by decide)
    · show 1 ≤ c2eB.prefix_len
      decide
    · show c2eB.prefix_len ≤ b
      have h16 : c2eB.prefix_len = 16 := rfl
      omega
  have hstepB : ∀ acc, applyEntry b (167838211 >>> (32 - b)) acc c2eB
      = slotWin acc c2eB := fun acc => by
    unfold applyEntry
    rw [if_pos hcB]
  rcases hL with rfl | rfl
  · unfold bestFor
    rw [List.foldl_cons, List.foldl_cons, List.foldl_nil, hstepB]
    by_cases hcA : coversSlot b c2eA (167838211 >>> (32 - b))
    · rw [show applyEntry b (167838211 >>> (32 - b)) none c2eA
          = slotWin none c2eA from by unfold applyEntry; rw [if_pos hcA]]
      decide
    · rw [show applyEntry b (167838211 >>> (32 - b)) none c2eA = none from by
        unfold applyEntry; rw [if_neg hcA]]
      decide
  · unfold bestFor
    rw [List.foldl_cons, List.foldl_cons, List.foldl_nil, hstepB]
    by_cases hcA : coversSlot b c2eA (167838211 >>> (32 - b))
    · rw [show applyEntry b (167838211 >>> (32 - b)) (slotWin none c2eB) c2eA
          = slotWin (slotWin none c2eB) c2eA from by
        unfold applyEntry; rw [if_pos hcA]]
      decide
    · rw [show applyEntry b (167838211 >>> (32 - b)) (slotWin none c2eB) c2eA
          = slotWin none c2eB from by unfold applyEntry; rw [if_neg hcA]]
      decide

/-- C2: inserting 10.0.0.0/8 and 10.1.0.0/16 in either order and searching
10.1.2.3 (167838211) returns the /16 record in both index strategies; the
Direct Lookup Index is taken at any index_bits in 16..=32 (its exactness
precondition), the Bucket Index as modelled from the spec. -/
theorem overlap_longest_wins
    (b : Nat) (s0 sA sAB s1 sB sBA s2 : IPRangeDirectLookup)
    (hb16 : 16 ≤ b) (hb32 : b ≤ 32)
    (hnew : IPRangeDirectLookup.new b = some s0)
    (hiA : s0.insert_range "10.0.0.0/8" "ISP_A" "AS_A" = some sA)
    (hiAB : sA.insert_range "10.1.0.0/16" "ISP_B" "AS_B" = some sAB)
    (hbuild1 : sAB.build_table = some s1)
    (hiB : s0.insert_range "10.1.0.0/16" "ISP_B" "AS_B" = some sB)
    (hiBA : sB.insert_range "10.0.0.0/8" "ISP_A" "AS_A" = some sBA)
    (hbuild2 : sBA.build_table = some s2) :
    s1.search 167838211 = some (some c2recB) ∧
    s2.search 167838211 = some (some c2recB) ∧
    ((IPRangeHashMap.new.insert_range "10.0.0.0/8" "ISP_A" "AS_A").bind
      (fun h1 => h1.insert_range "10.1.0.0/16" "ISP_B" "AS_B")).map
      (fun h2 => h2.search 167838211) = some (some c2recB) ∧
    ((IPRangeHashMap.new.insert_range "10.1.0.0/16" "ISP_B" "AS_B").bind
      (fun h1 => h1.insert_range "10.0.0.0/8" "ISP_A" "AS_A")).map
      (fun h2 => h2.search 167838211) = some (some c2recB) := by
  have hb1 : 1 ≤ b := by omega
  rw [new_spec b hb32] at hnew
  obtain rfl : s0 = emptyLookup b := (Option.some.inj hnew).symm
  rw [insert_concrete (emptyLookup b) "10.0.0.0/8" "ISP_A" "AS_A" c2eA rfl] at hiA
  obtain rfl : sA = { emptyLookup b with entries := [c2eA] } :=
    (Option.some.inj hiA).symm.trans rfl
  rw [insert_concrete { emptyLookup b with entries := [c2eA] } "10.1.0.0/16"
    "ISP_B" "AS_B" c2eB rfl] at hiAB
  obtain rfl : sAB = { emptyLookup b with entries := [c2eA, c2eB] } :=
    (Option.some.inj hiAB).symm.trans rfl
  rw [insert_concrete (emptyLookup b) "10.1.0.0/16" "ISP_B" "AS_B" c2eB rfl] at hiB
  obtain rfl : sB = { emptyLookup b with entries := [c2eB] } :=
    (Option.some.inj hiB).symm.trans rfl
  rw [insert_concrete { emptyLookup b with entries := [c2eB] } "10.0.0.0/8"
    "ISP_A" "AS_A" c2eA rfl] at hiBA
  obtain rfl : sBA = { emptyLookup b with entries := [c2eB, c2eA] } :=
    (Option.some.inj hiBA).symm.trans rfl
  have hwf1 := build_some_wf _ s1 hbuild1
  rw [build_table_spec _ (by exact hb1) (by exact hb32) rfl hwf1] at hbuild1
  have hs1 := Option.some.inj hbuild1
  have htab1 : ∀ i, s1.table i = bestFor b [c2eA, c2eB] i := fun i => by
    rw [← hs1]; exact rfl
  have hbits1 : s1.index_bits = b := by rw [← hs1]; exact rfl
  have htsz1 : s1.table_size = 2^b := by rw [← hs1]; exact rfl
  have hwf2 := build_some_wf _ s2 hbuild2
  rw [build_table_spec _ (by exact hb1) (by exact hb32) rfl hwf2] at hbuild2
  have hs2 := Option.some.inj hbuild2
  have htab2 : ∀ i, s2.table i = bestFor b [c2eB, c2eA] i := fun i => by
    rw [← hs2]; exact rfl
  have hbits2 : s2.index_bits = b := by rw [← hs2]; exact rfl
  have htsz2 : s2.table_size = 2^b := by rw [← hs2]; exact rfl
  refine ⟨?_, ?_, by decide, by decide⟩
  · rw [search_eval s1 167838211 (by omega) (by omega) (by rw [htsz1, hbits1])
      (by norm_num), hbits1, htab1,
      c2_bestFor b hb16 hb32 [c2eA, c2eB] (Or.inl rfl)]
    rfl
  · rw [search_eval s2 167838211 (by omega) (by omega) (by rw [htsz2, hbits2])
      (by norm_num), hbits2, htab2,
      c2_bestFor b hb16 hb32 [c2eB, c2eA] (Or.inr rfl)]
    rfl

set_option maxRecDepth 8000 in
theorem overlap_longest_wins_witness :
    c2s16AB.search 167838211 = some (some c2recB) ∧
    c2s16BA.search 167838211 = some (some c2recB) := by
  have h := overlap_longest_wins 16 (emptyLookup 16)
    { emptyLookup 16 with entries := [c2eA] }
    { emptyLookup 16 with entries := [c2eA, c2eB] } c2s16AB
    { emptyLookup 16 with entries := [c2eB] }
    { emptyLookup 16 with entries := [c2eB, c2eA] } c2s16BA
    (by norm_num) (by norm_num) rfl rfl rfl rfl rfl rfl rfl
  exact ⟨h.1, h.2.1⟩

/-- C3: the source's `parse_cidr` panics (embedded `none`) on malformed text
instead of returning a `MalformedCidr` result, and `insert_range` with such
text panics with it; moreover text the claim requires to be rejected is
accepted: a prefix beyond 32 parses, and so does text with two slashes. -/
theorem parse_cidr_panics_on_malformed :
    parse_cidr "not-a-cidr" = none ∧
    (∀ s : IPRangeDirectLookup, s.insert_range "not-a-cidr" "x" "y" = none) ∧
    parse_cidr "10.0.0.0/33" = some (167772160, 33) ∧
    parse_cidr "10.0.0.0/8/9" = some (167772160, 8) := by
  refine ⟨by decide, fun s => ?_, by decide, by decide⟩
  unfold IPRangeDirectLookup.insert_range IPRangeEntry.new
  rw [show parse_cidr "not-a-cidr" = none from by decide]
  rfl

/-- C5: one reload iteration retains the published generation unchanged when
the source is unreadable (metadata/open failure) or a line read fails with
an I/O error — even after good lines were consumed — but a parse error on a
well-formed 4-field line panics the whole process instead of being logged
and retained. -/
theorem reload_retains_or_panics :
    (∀ hm : IPRangeHashMap, monitorReloadStep hm none = some hm) ∧
    (∀ hm : IPRangeHashMap, monitorReloadStep hm (some [none]) = some hm) ∧
    (∀ hm : IPRangeHashMap,
      monitorReloadStep hm
        (some [some "10.0.0.0/8,\"ISP_A\",AS1,x", none]) = some hm) ∧
    (∀ hm : IPRangeHashMap,
      monitorReloadStep hm (some [some "not-a-cidr,x,y,z"]) = none) :=
  ⟨fun _ => rfl, fun _ => rfl, fun _ => rfl, fun _ => rfl⟩
